import Mathlib

/-!
Verification development for the core of the `ponder` blockchain indexing
framework, covering the bitemporal Postgres indexing store
(`packages/core/src/indexing-store/postgres/store.ts`) and the rate-limited
request queue (`createRequestQueue`).

Modelling conventions:
* Encoded checkpoints are fixed-width, lex-sortable strings; string order on
  them equals the order of the underlying checkpoints, so they are modelled as
  `Nat`.  The sentinel string `"latest"` starts with a letter while encoded
  checkpoints start with a digit, so `"latest"` sorts strictly above every
  encoded checkpoint; the type `ECheckpoint` captures both cases.
* Serialization of column values (`formatRow` / `formatColumnValue` /
  `deserializeRow`, which live outside the store file) is modelled as the
  identity on already-encoded scalar values; a row's non-id columns are an
  association list from column name to value.
* A `<table>_versioned` table is a list of `Version` rows.  The table's DDL
  declares `PRIMARY KEY (id, effectiveToCheckpoint)`; Postgres enforces it on
  every INSERT and UPDATE, which is modelled by the `pkOk` guard in
  `insertRow` / `updateRows` (states that violate the key are unreachable).
* SQL `ilike` (used by `idColumnComparator` for `bytes`-typed ids) is matching
  of the stored column text against the pattern, case-insensitively, with the
  wildcards `%` (any substring) and `_` (any single character).
* `executeTakeFirst` on a SELECT is modelled by `List.find?`.
-/

namespace Ponder

/-- `effectiveToCheckpoint` column value: an encoded checkpoint or the
sentinel string `"latest"`, which sorts strictly above every encoded
checkpoint. -/
inductive ECheckpoint where
  | ckpt (c : Nat)
  | latest
deriving DecidableEq

/-- String comparison `t > c` between an `effectiveToCheckpoint` value and an
encoded checkpoint (`"latest"` sorts above every encoded checkpoint). -/
def ECheckpoint.gtNat : ECheckpoint → Nat → Bool
  | .latest, _ => true
  | .ckpt a, c => decide (c < a)

/-- String comparison `t ≥ c` between an `effectiveToCheckpoint` value and an
encoded checkpoint. -/
def ECheckpoint.geNat : ECheckpoint → Nat → Bool
  | .latest, _ => true
  | .ckpt a, c => decide (c ≤ a)

/-- String comparison `t ≤ c` between an `effectiveToCheckpoint` value and an
encoded checkpoint (`"latest"` is never ≤ an encoded checkpoint). -/
def ECheckpoint.leNat : ECheckpoint → Nat → Bool
  | .latest, _ => false
  | .ckpt a, c => decide (a ≤ c)

/-- A serialized column value (serialization itself is outside the store
file and is modelled as the identity). -/
abbrev ColVal := Int

/-- The non-id columns of a row, keyed by column name. -/
abbrev RowData := List (String × ColVal)

/-- JavaScript object spread `{ ...base, ...patch }` restricted to the data
columns: keys of `patch` override those of `base`, keys absent from `base`
are appended. -/
def mergeRow (base patch : RowData) : RowData :=
  base.map (fun kv =>
    match patch.lookup kv.1 with
    | some v => (kv.1, v)
    | none => kv)
  ++ patch.filter (fun kv => (base.lookup kv.1).isNone)

/-- `startsWithChars hay needle`: `needle` is a prefix of `hay`. -/
def startsWithChars : List Char → List Char → Bool
  | _, [] => true
  | [], _ :: _ => false
  | c :: cs, d :: ds => c == d && startsWithChars cs ds

/-- `containsChars hay needle`: `needle` occurs contiguously in `hay`. -/
def containsChars : List Char → List Char → Bool
  | [], needle => startsWithChars [] needle
  | c :: cs, needle => startsWithChars (c :: cs) needle || containsChars cs needle

/-- `strContains hay needle`: `needle` occurs in `hay`. -/
def strContains (hay needle : String) : Bool :=
  containsChars hay.toList needle.toList

/-- `anySuffix f s`: `f` holds of some suffix of `s` (including `s` and `[]`). -/
def anySuffix (f : List Char → Bool) : List Char → Bool
  | [] => f []
  | c :: cs => f (c :: cs) || anySuffix f cs

/-- Postgres `ILIKE`: match the string (second argument) against the pattern
(first argument), case-insensitively; `%` matches any substring and `_` any
single character. -/
def ilikeMatch (p : List Char) : List Char → Bool :=
  match p with
  | [] => fun s => s.isEmpty
  | c :: ps =>
    let rest := ilikeMatch ps
    fun s =>
      if c = '%' then anySuffix rest s
      else
        match s with
        | [] => false
        | d :: ds => (c == '_' || c.toLower == d.toLower) && rest ds

/-- Lowercasing of a string, character by character. -/
def strLower (s : String) : String := ⟨s.toList.map Char.toLower⟩

/-- The comparator chosen by `idColumnComparator`. -/
inductive IdComparator where
  | eqCmp
  | ilikeCmp
deriving DecidableEq

/-- `idColumnComparator` from the store: `ilike` when the table's `id` column
has scalar type `bytes`, `=` otherwise.  The schema is abstracted to the one
bit the comparator reads. -/
def idColumnComparator (idTypeIsBytes : Bool) : IdComparator :=
  if idTypeIsBytes then .ilikeCmp else .eqCmp

/-- Apply a comparator: `stored <cmp> queryId`, with the query id as the
`ilike` pattern (the store issues `WHERE id <cmp> <formatted query id>`). -/
def applyComparator : IdComparator → String → String → Bool
  | .eqCmp, stored, q => stored == q
  | .ilikeCmp, stored, q => ilikeMatch q.toList stored.toList

/-- The id WHERE-clause used by `internalFindUnique`, `update`, `updateMany`,
`upsert` and `delete`. -/
def idMatches (idTypeIsBytes : Bool) (stored q : String) : Bool :=
  applyComparator (idColumnComparator idTypeIsBytes) stored q

/-- One row of a `<table>_versioned` table. -/
structure Version where
  id : String
  data : RowData
  effectiveFromCheckpoint : Nat
  effectiveToCheckpoint : ECheckpoint
deriving DecidableEq

/-- Two rows clash on the table's `PRIMARY KEY (id, effectiveToCheckpoint)`. -/
def noPkClash (u v : Version) : Prop :=
  ¬(u.id = v.id ∧ u.effectiveToCheckpoint = v.effectiveToCheckpoint)

instance : DecidableRel noPkClash := fun u v =>
  inferInstanceAs (Decidable (¬(u.id = v.id ∧ u.effectiveToCheckpoint = v.effectiveToCheckpoint)))

/-- The primary key `(id, effectiveToCheckpoint)` is satisfied: no two rows
clash. -/
def pkOk (s : List Version) : Prop := s.Pairwise noPkClash

instance (s : List Version) : Decidable (pkOk s) :=
  inferInstanceAs (Decidable (s.Pairwise noPkClash))

/-- Errors surfaced by store operations. -/
inductive StoreError where
  | notFound
  | thrownMessage (msg : String)
  | pkViolation
deriving DecidableEq

instance {e a : Type} [DecidableEq e] [DecidableEq a] : DecidableEq (Except e a) := fun x y =>
  match x, y with
  | .ok u, .ok v =>
    if h : u = v then isTrue (by rw [h]) else isFalse (by intro hc; cases hc; exact h rfl)
  | .error u, .error v =>
    if h : u = v then isTrue (by rw [h]) else isFalse (by intro hc; cases hc; exact h rfl)
  | .ok _, .error _ => isFalse (fun hc => Except.noConfusion hc)
  | .error _, .ok _ => isFalse (fun hc => Except.noConfusion hc)

/-- A single-row INSERT; Postgres rejects it when the new row's primary key
clashes with an existing row. -/
def insertRow (s : List Version) (v : Version) : Except StoreError (List Version) :=
  if ∀ u ∈ s, noPkClash u v then .ok (s ++ [v]) else .error .pkViolation

/-- A multi-row INSERT statement (one `createMany` chunk); all-or-nothing.  -/
def insertChunk (s : List Version) (chunk : List Version) : Except StoreError (List Version) :=
  if pkOk (s ++ chunk) then .ok (s ++ chunk) else .error .pkViolation

/-- An UPDATE statement: rewrite every row selected by `sel` with `f`;
Postgres rejects the statement when the result violates the primary key. -/
def updateRows (s : List Version) (sel : Version → Bool) (f : Version → Version) :
    Except StoreError (List Version) :=
  if pkOk (s.map (fun v => if sel v then f v else v)) then
    .ok (s.map (fun v => if sel v then f v else v))
  else .error .pkViolation

/-- A DELETE statement: remove every row selected by `sel`. -/
def deleteRows (s : List Version) (sel : Version → Bool) : List Version :=
  s.filter (fun v => !sel v)

/-- The `SELECT ... WHERE id <cmp> ? AND effectiveToCheckpoint = 'latest'`
query shared by `update`, `updateMany`, `upsert` and `delete`
(`executeTakeFirst` modelled by `List.find?`). -/
def latestVersionOf (b : Bool) (s : List Version) (id : String) : Option Version :=
  s.find? (fun v => idMatches b v.id id && v.effectiveToCheckpoint == ECheckpoint.latest)

/-- `internalFindUnique`: select the version of `id` visible at `checkpoint`
(`.latest` selects the current version). -/
def internalFindUnique (b : Bool) (s : List Version) (id : String)
    (checkpoint : ECheckpoint) : Option Version :=
  match checkpoint with
  | .latest => s.find? (fun v => idMatches b v.id id && v.effectiveToCheckpoint == ECheckpoint.latest)
  | .ckpt c => s.find? (fun v => idMatches b v.id id
      && decide (v.effectiveFromCheckpoint ≤ c)
      && (v.effectiveToCheckpoint.gtNat c || v.effectiveToCheckpoint == ECheckpoint.latest))

/-- `create`: INSERT one row valid from `checkpoint` to `"latest"`. -/
def create (s : List Version) (checkpoint : Nat) (id : String) (data : RowData) :
    Except StoreError (List Version) :=
  insertRow s ⟨id, data, checkpoint, .latest⟩

/-- Chunks of at most `MAX_BATCH_SIZE = 1000` rows for `createMany`. -/
def chunkBatches : List Version → List (List Version)
  | [] => []
  | v :: vs => (v :: vs).take 1000 :: chunkBatches ((v :: vs).drop 1000)
termination_by l => l.length
decreasing_by simp [List.length_drop]; omega

/-- `createMany`: chunked INSERTs; each chunk is its own statement and a
failed chunk leaves the other chunks' rows in place (the call is not atomic
across chunks). -/
def createMany (s : List Version) (checkpoint : Nat) (rows : List (String × RowData)) :
    List Version :=
  (chunkBatches (rows.map (fun r => ⟨r.1, r.2, checkpoint, .latest⟩))).foldl
    (fun acc ch =>
      match insertChunk acc ch with
      | .ok s' => s'
      | .error _ => acc)
    s

/-- The shared tail of `update` / `updateMany` / `upsert`, applied once the
current version `latestRow` has been loaded: fail on a write into the past,
update in place when `latestRow.effectiveFromCheckpoint` equals the write
checkpoint (squash), otherwise truncate the current version and INSERT the
merged new version (branch). -/
def branchOrSquash (b : Bool) (s : List Version) (checkpoint : Nat) (formattedId : String)
    (latestRow : Version) (setRow : Version → Version) (insRow : Version) :
    Except StoreError (List Version) :=
  if checkpoint < latestRow.effectiveFromCheckpoint then
    .error (.thrownMessage "Cannot update a record in the past")
  else if latestRow.effectiveFromCheckpoint = checkpoint then
    updateRows s
      (fun v => idMatches b v.id formattedId && decide (v.effectiveFromCheckpoint = checkpoint))
      setRow
  else
    match updateRows s
        (fun v => idMatches b v.id formattedId && v.effectiveToCheckpoint == ECheckpoint.latest)
        (fun v => { v with effectiveToCheckpoint := .ckpt checkpoint }) with
    | .error e => .error e
    | .ok s1 => insertRow s1 insRow

/-- `update` with a patch object (`updateRow = formatRow({ id, ...data })`,
so the patch also rewrites the id column). -/
def update (b : Bool) (s : List Version) (checkpoint : Nat) (id : String) (data : RowData) :
    Except StoreError (List Version) :=
  match latestVersionOf b s id with
  | none => .error .notFound
  | some latestRow =>
    branchOrSquash b s checkpoint id latestRow
      (fun v => { v with id := id, data := mergeRow v.data data })
      ⟨id, mergeRow latestRow.data data, checkpoint, .latest⟩

/-- `upsert`: `update`, except that an absent current version is created from
the `create` data instead of failing. -/
def upsert (b : Bool) (s : List Version) (checkpoint : Nat) (id : String)
    (createData updateData : RowData) : Except StoreError (List Version) :=
  match latestVersionOf b s id with
  | none => insertRow s ⟨id, createData, checkpoint, .latest⟩
  | some latestRow =>
    branchOrSquash b s checkpoint id latestRow
      (fun v => { v with id := id, data := mergeRow v.data updateData })
      ⟨id, mergeRow latestRow.data updateData, checkpoint, .latest⟩

/-- The per-row loop of `updateMany` (`formattedId = latestRow.id`; the patch
there is `formatRow(data)`, without the id column). -/
def updateManyGo (b : Bool) (checkpoint : Nat) (data : RowData) :
    List Version → List Version → Except StoreError (List Version)
  | st, [] => .ok st
  | st, latestRow :: rest =>
    match branchOrSquash b st checkpoint latestRow.id latestRow
        (fun v => { v with data := mergeRow v.data data })
        ⟨latestRow.id, mergeRow latestRow.data data, checkpoint, .latest⟩ with
    | .error e => .error e
    | .ok st' => updateManyGo b checkpoint data st' rest

/-- `updateMany`: select the current versions matching the `where` input
(abstracted as the predicate `wsel`) and apply the single-row update rule to
each inside one transaction. -/
def updateMany (b : Bool) (s : List Version) (checkpoint : Nat) (wsel : Version → Bool)
    (data : RowData) : Except StoreError (List Version) :=
  updateManyGo b checkpoint data s
    (s.filter (fun v => v.effectiveToCheckpoint == ECheckpoint.latest && wsel v))

/-- The `delete` step-1 selection: a creation within the same checkpoint. -/
def deleteShortcutPred (b : Bool) (checkpoint : Nat) (id : String) (v : Version) : Bool :=
  idMatches b v.id id && decide (v.effectiveFromCheckpoint = checkpoint)
    && v.effectiveToCheckpoint == ECheckpoint.latest

/-- The `delete` step-2 / current-version selection. -/
def latestRowPred (b : Bool) (id : String) (v : Version) : Bool :=
  idMatches b v.id id && v.effectiveToCheckpoint == ECheckpoint.latest

/-- `delete`: first try to DELETE a row created within the same checkpoint;
if none was deleted, truncate the current version's validity to `checkpoint`.
Returns whether either step affected a row. -/
def delete (b : Bool) (s : List Version) (checkpoint : Nat) (id : String) :
    Except StoreError (Bool × List Version) :=
  if s.any (deleteShortcutPred b checkpoint id) then
    .ok (true, deleteRows s (deleteShortcutPred b checkpoint id))
  else
    match updateRows s (latestRowPred b id)
        (fun v => { v with effectiveToCheckpoint := .ckpt checkpoint }) with
    | .error e => .error e
    | .ok s2 => .ok (s.any (latestRowPred b id), s2)

/-- `revert`: DELETE versions written at or after the safe checkpoint, then
re-open every surviving version whose truncation happened at or after it. -/
def revert (s : List Version) (cs : Nat) : Except StoreError (List Version) :=
  let s1 := s.filter (fun v => !decide (cs ≤ v.effectiveFromCheckpoint))
  updateRows s1 (fun v => v.effectiveToCheckpoint.geNat cs)
    (fun v => { v with effectiveToCheckpoint := .latest })

/-- One mutating store call (the `where` input of `updateMany` is abstracted
as a row predicate). -/
inductive Op where
  | create (checkpoint : Nat) (id : String) (data : RowData)
  | createMany (checkpoint : Nat) (rows : List (String × RowData))
  | update (checkpoint : Nat) (id : String) (data : RowData)
  | updateMany (checkpoint : Nat) (wsel : Version → Bool) (data : RowData)
  | upsert (checkpoint : Nat) (id : String) (createData updateData : RowData)
  | delete (checkpoint : Nat) (id : String)
  | revert (cs : Nat)

/-- Apply one store call to a table.  Every call except `createMany` runs in
a single transaction, so a failed call leaves the table unchanged;
`createMany` commits each chunk separately and keeps the successful
chunks. -/
def applyOp (b : Bool) (s : List Version) : Op → List Version
  | .create c id data =>
    match create s c id data with
    | .ok s' => s'
    | .error _ => s
  | .createMany c rows => createMany s c rows
  | .update c id data =>
    match update b s c id data with
    | .ok s' => s'
    | .error _ => s
  | .updateMany c wsel data =>
    match updateMany b s c wsel data with
    | .ok s' => s'
    | .error _ => s
  | .upsert c id cd ud =>
    match upsert b s c id cd ud with
    | .ok s' => s'
    | .error _ => s
  | .delete c id =>
    match delete b s c id with
    | .ok r => r.2
    | .error _ => s
  | .revert cs =>
    match revert s cs with
    | .ok s' => s'
    | .error _ => s

/-- Run a sequence of store calls against an initially empty table. -/
def execOps (b : Bool) (ops : List Op) : List Version :=
  ops.foldl (applyOp b) []

/-- At most one current version per (physical) id: the rows with
`effectiveToCheckpoint = "latest"` carry pairwise distinct ids. -/
def atMostOneCurrent (s : List Version) : Prop :=
  (s.filter (fun v => v.effectiveToCheckpoint == ECheckpoint.latest)).Pairwise
    (fun u v => u.id ≠ v.id)

/-- Validity intervals are non-empty (`"latest"` counts as +∞):
spec invariant 3. -/
def validIntervals (s : List Version) : Prop :=
  ∀ v ∈ s, v.effectiveToCheckpoint.gtNat v.effectiveFromCheckpoint = true

/-- Two versions occupy disjoint checkpoint intervals. -/
def disjointVersions (u v : Version) : Prop :=
  u.effectiveToCheckpoint.leNat v.effectiveFromCheckpoint = true
    ∨ v.effectiveToCheckpoint.leNat u.effectiveFromCheckpoint = true

/-- Versions of the same id occupy pairwise disjoint intervals (a consequence
of spec invariants 2 and 3: each id's versions form a contiguous chain of
non-empty intervals). -/
def chainDisjoint (s : List Version) : Prop :=
  s.Pairwise (fun u v => u.id = v.id → disjointVersions u v)

instance (u v : Version) : Decidable (disjointVersions u v) :=
  inferInstanceAs (Decidable (_ ∨ _))

instance (s : List Version) : Decidable (chainDisjoint s) :=
  inferInstanceAs (Decidable (s.Pairwise _))

instance (s : List Version) : Decidable (validIntervals s) :=
  inferInstanceAs (Decidable (∀ v ∈ s, _ = true))

/-! ### RequestQueue (`createRequestQueue`) -/

/-- The dispatch interval in milliseconds computed by `createRequestQueue`
from `maxRequestsPerSecond` (a JavaScript number, modelled as a rational). -/
def interval (maxRequestsPerSecond : ℚ) : ℚ :=
  if 1000 / maxRequestsPerSecond > 50 then 1000 / maxRequestsPerSecond else 50

/-- The number of tasks dispatched per tick, as computed by
`createRequestQueue`. -/
def requestBatchSize (maxRequestsPerSecond : ℚ) : ℤ :=
  if 1000 / maxRequestsPerSecond > 50 then 1 else ⌊maxRequestsPerSecond / 20⌋

/-- State of the request queue.  Tasks are identified by the order of their
`request()` call; `queue` holds tasks not yet handed to the transport,
`inFlight` the dispatched but unsettled ones, and `settled` those whose
promise has resolved or rejected.  Timing is abstracted away. -/
structure QueueState where
  queue : List Nat
  inFlight : List Nat
  settled : List Nat
  nextId : Nat
  running : Bool
deriving DecidableEq

/-- Atomic events of the queue: a `request()` call, one iteration of the
dispatch loop in `processQueue`, settlement of a dispatched task's transport
promise, and the `clear` / `start` / `pause` controls. -/
inductive QueueEvent where
  | request
  | dispatchOne
  | settle (t : Nat)
  | clearEv
  | startEv
  | pauseEv
deriving DecidableEq

/-- Single-step semantics of the queue. `clear()` replaces the pending queue
with a fresh empty array and leaves in-flight tasks untouched. -/
def qstep (s : QueueState) (e : QueueEvent) : QueueState :=
  match e with
  | .request => { s with queue := s.queue ++ [s.nextId], nextId := s.nextId + 1 }
  | .dispatchOne =>
    if s.running then
      match s.queue with
      | [] => s
      | t :: rest => { s with queue := rest, inFlight := s.inFlight ++ [t] }
    else s
  | .settle t =>
    if t ∈ s.inFlight then
      { s with inFlight := s.inFlight.erase t, settled := s.settled ++ [t] }
    else s
  | .clearEv => { s with queue := [] }
  | .startEv => { s with running := true }
  | .pauseEv => { s with running := false }

/-- Run a sequence of queue events. -/
def qexec (s : QueueState) (es : List QueueEvent) : QueueState :=
  es.foldl qstep s

/-- The queue as created by `createRequestQueue` (empty, running). -/
def qinit : QueueState := ⟨[], [], [], 0, true⟩

/-- A task id is absent from every part of the queue state and can never be
re-issued. -/
def deadTask (t : Nat) (s : QueueState) : Prop :=
  t ∉ s.queue ∧ t ∉ s.inFlight ∧ t ∉ s.settled ∧ t < s.nextId

/-- All task ids in the state are below `nextId`, the pending queue holds no
duplicates, and no pending task is in flight or settled. -/
def qWellFormed (s : QueueState) : Prop :=
  (∀ t ∈ s.queue, t < s.nextId) ∧ (∀ t ∈ s.inFlight, t < s.nextId)
    ∧ (∀ t ∈ s.settled, t < s.nextId)
    ∧ (∀ t ∈ s.queue, t ∉ s.inFlight ∧ t ∉ s.settled)
    ∧ s.queue.Nodup

/-! ### Helper lemmas: `ilike` matching -/

theorem anySuffix_of_self (f : List Char → Bool) (s : List Char) (h : f s = true) :
    anySuffix f s = true := by
  cases s with
  | nil => simpa [anySuffix] using h
  | cons c cs => simp [anySuffix, h]

theorem ilikeMatch_of_lower_eq (p : List Char) :
    ∀ s : List Char, p.map Char.toLower = s.map Char.toLower → ilikeMatch p s = true := by
  induction p with
  | nil =>
    intro s h
    have hs : s = [] := by simpa using h.symm
    subst hs
    simp [ilikeMatch]
  | cons c ps ih =>
    intro s h
    cases s with
    | nil => simp at h
    | cons d ds =>
      simp only [List.map_cons, List.cons.injEq] at h
      obtain ⟨h1, h2⟩ := h
      by_cases hc : c = '%'
      · subst hc
        have hsuf : anySuffix (ilikeMatch ps) ds = true := anySuffix_of_self _ _ (ih ds h2)
        simp [ilikeMatch, anySuffix, hsuf]
      · simp [ilikeMatch, hc, ih ds h2, h1]

theorem ilikeMatch_refl (s : List Char) : ilikeMatch s s = true :=
  ilikeMatch_of_lower_eq s s rfl

theorem idMatches_self (b : Bool) (id : String) : idMatches b id id = true := by
  cases b <;> simp [idMatches, idColumnComparator, applyComparator, ilikeMatch_refl]

theorem idMatches_bytes_of_lower_eq (stored q : String) (h : strLower stored = strLower q) :
    idMatches true stored q = true := by
  have h' : stored.toList.map Char.toLower = q.toList.map Char.toLower :=
    congrArg String.toList h
  simpa [idMatches, idColumnComparator, applyComparator] using
    ilikeMatch_of_lower_eq q.toList stored.toList h'.symm

theorem idMatches_exact (a b : String) : idMatches false a b = (a == b) := rfl

/-! ### Helper lemmas: primary-key preservation -/

theorem pkOk_append_single {s : List Version} {v : Version} (hs : pkOk s)
    (hv : ∀ u ∈ s, noPkClash u v) : pkOk (s ++ [v]) := by
  rw [pkOk, List.pairwise_append]
  refine ⟨hs, List.pairwise_singleton _ _, ?_⟩
  intro u hu w hw
  have : w = v := by simpa using hw
  subst this
  exact hv u hu

theorem insertRow_ok_pkOk {s s' : List Version} {v : Version} (hs : pkOk s)
    (h : insertRow s v = .ok s') : pkOk s' := by
  unfold insertRow at h
  split at h
  · simp only [Except.ok.injEq] at h
    subst h
    exact pkOk_append_single hs (by assumption)
  · exact Except.noConfusion h

theorem insertChunk_ok_pkOk {s ch s' : List Version} (h : insertChunk s ch = .ok s') :
    pkOk s' := by
  unfold insertChunk at h
  split at h
  · simp only [Except.ok.injEq] at h
    subst h
    assumption
  · exact Except.noConfusion h

theorem updateRows_ok_pkOk {s s' : List Version} {sel : Version → Bool} {f : Version → Version}
    (h : updateRows s sel f = .ok s') : pkOk s' := by
  unfold updateRows at h
  split at h
  · simp only [Except.ok.injEq] at h
    subst h
    assumption
  · exact Except.noConfusion h

theorem pkOk_filter {s : List Version} (p : Version → Bool) (hs : pkOk s) :
    pkOk (s.filter p) :=
  hs.sublist (List.filter_sublist s)

theorem branchOrSquash_ok_pkOk {b : Bool} {s : List Version} {c : Nat} {fid : String}
    {lr : Version} {setRow : Version → Version} {insRow : Version} {s' : List Version}
    (h : branchOrSquash b s c fid lr setRow insRow = .ok s') : pkOk s' := by
  unfold branchOrSquash at h
  split at h
  · exact Except.noConfusion h
  · split at h
    · exact updateRows_ok_pkOk h
    · split at h
      · exact Except.noConfusion h
      · exact insertRow_ok_pkOk (updateRows_ok_pkOk (by assumption)) h

theorem updateManyGo_ok_pkOk (b : Bool) (c : Nat) (data : RowData) (l : List Version) :
    ∀ st s' : List Version, pkOk st → updateManyGo b c data st l = .ok s' → pkOk s' := by
  induction l with
  | nil =>
    intro st s' hst h
    unfold updateManyGo at h
    simp only [Except.ok.injEq] at h
    subst h
    exact hst
  | cons lr rest ih =>
    intro st s' hst h
    unfold updateManyGo at h
    split at h
    · exact Except.noConfusion h
    · exact ih _ _ (branchOrSquash_ok_pkOk (by assumption)) h

theorem createMany_pkOk (c : Nat) (rows : List (String × RowData)) {s : List Version}
    (hs : pkOk s) : pkOk (createMany s c rows) := by
  unfold createMany
  generalize chunkBatches (rows.map fun r => ⟨r.1, r.2, c, .latest⟩) = chunks
  induction chunks generalizing s with
  | nil => simpa using hs
  | cons ch rest ih =>
    simp only [List.foldl_cons]
    cases hins : insertChunk s ch with
    | ok s1 => simpa [hins] using ih (insertChunk_ok_pkOk hins)
    | error e => simpa [hins] using ih hs

theorem update_ok_pkOk {b : Bool} {s : List Version} {c : Nat} {id : String} {data : RowData}
    {s' : List Version} (h : update b s c id data = .ok s') : pkOk s' := by
  unfold update at h
  split at h
  · exact Except.noConfusion h
  · exact branchOrSquash_ok_pkOk h

theorem upsert_ok_pkOk {b : Bool} {s : List Version} {c : Nat} {id : String}
    {cd ud : RowData} {s' : List Version} (hs : pkOk s)
    (h : upsert b s c id cd ud = .ok s') : pkOk s' := by
  unfold upsert at h
  split at h
  · exact insertRow_ok_pkOk hs h
  · exact branchOrSquash_ok_pkOk h

theorem updateMany_ok_pkOk {b : Bool} {s : List Version} {c : Nat} {wsel : Version → Bool}
    {data : RowData} {s' : List Version} (hs : pkOk s)
    (h : updateMany b s c wsel data = .ok s') : pkOk s' :=
  updateManyGo_ok_pkOk b c data _ s s' hs h

theorem delete_ok_pkOk {b : Bool} {s : List Version} {c : Nat} {id : String}
    {r : Bool × List Version} (hs : pkOk s) (h : delete b s c id = .ok r) : pkOk r.2 := by
  unfold delete at h
  split at h
  · simp only [Except.ok.injEq] at h
    subst h
    exact pkOk_filter _ hs
  · split at h
    · exact Except.noConfusion h
    · simp only [Except.ok.injEq] at h
      subst h
      exact updateRows_ok_pkOk (by assumption)

theorem revert_ok_pkOk {s s' : List Version} {cs : Nat} (h : revert s cs = .ok s') :
    pkOk s' := by
  unfold revert at h
  exact updateRows_ok_pkOk h

theorem applyOp_pkOk (b : Bool) (op : Op) {s : List Version} (hs : pkOk s) :
    pkOk (applyOp b s op) := by
  cases op with
  | create c id data =>
    simp only [applyOp]
    cases h : create s c id data with
    | ok s' => exact insertRow_ok_pkOk hs h
    | error e => exact hs
  | createMany c rows => exact createMany_pkOk c rows hs
  | update c id data =>
    simp only [applyOp]
    cases h : update b s c id data with
    | ok s' => exact update_ok_pkOk h
    | error e => exact hs
  | updateMany c wsel data =>
    simp only [applyOp]
    cases h : updateMany b s c wsel data with
    | ok s' => exact updateMany_ok_pkOk hs h
    | error e => exact hs
  | upsert c id cd ud =>
    simp only [applyOp]
    cases h : upsert b s c id cd ud with
    | ok s' => exact upsert_ok_pkOk hs h
    | error e => exact hs
  | delete c id =>
    simp only [applyOp]
    cases h : delete b s c id with
    | ok r => exact delete_ok_pkOk hs h
    | error e => exact hs
  | revert cs =>
    simp only [applyOp]
    cases h : revert s cs with
    | ok s' => exact revert_ok_pkOk h
    | error e => exact hs

theorem execOps_pkOk (b : Bool) (ops : List Op) : pkOk (execOps b ops) := by
  unfold execOps
  have : ∀ s : List Version, pkOk s → pkOk (ops.foldl (applyOp b) s) := by
    induction ops with
    | nil => intro s hs; simpa using hs
    | cons op rest ih =>
      intro s hs
      simp only [List.foldl_cons]
      exact ih _ (applyOp_pkOk b op hs)
  exact this [] List.Pairwise.nil

theorem atMostOneCurrent_of_pkOk {s : List Version} (hs : pkOk s) : atMostOneCurrent s := by
  have h1 : (s.filter (fun v => v.effectiveToCheckpoint == ECheckpoint.latest)).Pairwise
      noPkClash := hs.sublist (List.filter_sublist s)
  refine List.Pairwise.imp_of_mem ?_ h1
  intro u v hu hv hcl hid
  have hu' := (List.mem_filter.mp hu).2
  have hv' := (List.mem_filter.mp hv).2
  rw [beq_iff_eq] at hu' hv'
  exact hcl ⟨hid, hu'.trans hv'.symm⟩

theorem ckpt_beq_latest (a : Nat) : (ECheckpoint.ckpt a == ECheckpoint.latest) = false := rfl

theorem map_id_of_mem {α : Type} {l : List α} {f : α → α} (h : ∀ a ∈ l, f a = a) :
    l.map f = l := by
  induction l with
  | nil => rfl
  | cons a t ih =>
    simp only [List.map_cons, h a (List.mem_cons_self a t)]
    rw [ih (fun x hx => h x (List.mem_cons_of_mem a hx))]

/-! ### Claims -/

/-- C9: for every `maxRequestsPerSecond = R > 0`, `createRequestQueue` uses
exactly `interval = max(1000/R, 50)` milliseconds between dispatch ticks, and
`batchSize = 1` when the interval equals `1000/R`, otherwise
`batchSize = ⌊R / 20⌋`. -/
theorem c9_rate_limit_params (R : ℚ) (hR : 0 < R) :
    interval R = max (1000 / R) 50 ∧
    requestBatchSize R = if interval R = 1000 / R then 1 else ⌊R / 20⌋ := by
  unfold interval requestBatchSize
  rcases lt_or_ge 50 (1000 / R) with h | h
  · rw [if_pos h, if_pos h, max_eq_left h.le, if_pos rfl]
    exact ⟨rfl, rfl⟩
  · have hns : ¬(1000 / R > 50) := not_lt.2 h
    rw [if_neg hns, if_neg hns, max_eq_right h]
    refine ⟨rfl, ?_⟩
    by_cases he : (50 : ℚ) = 1000 / R
    · rw [if_pos he]
      have hR0 : R ≠ 0 := ne_of_gt hR
      have hR20 : R = 20 := by
        field_simp at he
        linarith
      subst hR20
      norm_num
    · rw [if_neg he]

theorem c9_witness :
    interval 100 = max (1000 / 100) 50 ∧
    requestBatchSize 100 = if interval 100 = 1000 / 100 then 1 else ⌊(100 : ℚ) / 20⌋ :=
  c9_rate_limit_params 100 (by norm_num)

/-- C8: for a table whose id column has scalar type `bytes`, the id-matching
WHERE clause (shared by `findUnique`, `update`, `upsert` and `delete`) is
case-insensitive — an id differing from the stored id only in letter case
addresses the same stored row — and for every other id type the comparison is
exact string equality. -/
theorem c8_bytes_id_case_insensitive (a b : String) (h : strLower a = strLower b) :
    idMatches true a b = true
    ∧ (∀ (d : RowData) (f : Nat) (rest : List Version),
        internalFindUnique true (⟨a, d, f, .latest⟩ :: rest) b .latest
            = some ⟨a, d, f, .latest⟩
        ∧ latestVersionOf true (⟨a, d, f, .latest⟩ :: rest) b
            = some ⟨a, d, f, .latest⟩)
    ∧ (∀ x y : String, idMatches false x y = (x == y)) := by
  have hm : idMatches true a b = true := idMatches_bytes_of_lower_eq a b h
  refine ⟨hm, ?_, fun x y => rfl⟩
  intro d f rest
  constructor
  · simp [internalFindUnique, List.find?, hm]
  · simp [latestVersionOf, List.find?, hm]

theorem c8_witness :
    idMatches true "0xAB" "0xab" = true
    ∧ internalFindUnique true [⟨"0xAB", [], 0, .latest⟩] "0xab" .latest
        = some ⟨"0xAB", [], 0, .latest⟩
    ∧ idMatches false "0xAB" "0xab" = ("0xAB" == "0xab") := by
  have h := c8_bytes_id_case_insensitive "0xAB" "0xab" (by decide)
  exact ⟨h.1, (h.2.1 [] 0 []).1, h.2.2 "0xAB" "0xab"⟩

theorem idMatches_false_ne {b : Bool} {a q : String} (h : idMatches b a q = false) :
    a ≠ q := by
  intro heq
  rw [heq, idMatches_self] at h
  simp at h

theorem find?_append_false {α : Type} (p : α → Bool) (l₁ l₂ : List α)
    (h : ∀ x ∈ l₁, p x = false) : (l₁ ++ l₂).find? p = l₂.find? p := by
  induction l₁ with
  | nil => rfl
  | cons a t ih =>
    have ha := h a (List.mem_cons_self a t)
    simp only [List.cons_append, List.find?, ha]
    exact ih (fun x hx => h x (List.mem_cons_of_mem a hx))

/-- C2: in any table where `id` has no versions, `create(table, c, id, data)`
followed by `update(table, c, id, patch)` at the same checkpoint leaves
exactly one version for that id, with `effectiveFromCheckpoint = c`,
`effectiveToCheckpoint = "latest"` and the patched fields applied over the
created values; the update is performed in place and inserts no new
version. -/
theorem c2_squash_update (b : Bool) (s : List Version) (c : Nat) (id : String)
    (data patch : RowData) (hpk : pkOk s)
    (hfresh : ∀ v ∈ s, idMatches b v.id id = false) :
    create s c id data = .ok (s ++ [⟨id, data, c, .latest⟩])
    ∧ update b (s ++ [⟨id, data, c, .latest⟩]) c id patch
        = .ok (s ++ [⟨id, mergeRow data patch, c, .latest⟩])
    ∧ (s ++ [(⟨id, mergeRow data patch, c, .latest⟩ : Version)]).filter
        (fun v : Version => idMatches b v.id id)
        = [(⟨id, mergeRow data patch, c, .latest⟩ : Version)] := by
  have hid_ne : ∀ v ∈ s, v.id ≠ id := fun v hv => idMatches_false_ne (hfresh v hv)
  have hnc0 : ∀ u ∈ s, noPkClash u ⟨id, data, c, .latest⟩ := by
    intro u hu hcl
    exact hid_ne u hu hcl.1
  have hpk2 : pkOk (s ++ [⟨id, mergeRow data patch, c, .latest⟩]) := by
    refine pkOk_append_single hpk ?_
    intro u hu hcl
    exact hid_ne u hu hcl.1
  refine ⟨?_, ?_, ?_⟩
  · unfold create insertRow
    rw [if_pos hnc0]
  · have hfind : latestVersionOf b (s ++ [⟨id, data, c, .latest⟩]) id
        = some ⟨id, data, c, .latest⟩ := by
      unfold latestVersionOf
      rw [find?_append_false _ _ _ (fun v hv => by simp [hfresh v hv])]
      simp [List.find?, idMatches_self]
    have hkey : (s ++ [(⟨id, data, c, .latest⟩ : Version)]).map
        (fun v : Version =>
          if (idMatches b v.id id && decide (v.effectiveFromCheckpoint = c)) = true
          then { v with id := id, data := mergeRow v.data patch } else v)
        = s ++ [(⟨id, mergeRow data patch, c, .latest⟩ : Version)] := by
      rw [List.map_append]
      congr 1
      · exact map_id_of_mem (fun v hv => by simp [hfresh v hv])
      · simp [idMatches_self]
    simp only [update, hfind, branchOrSquash, updateRows, Nat.lt_irrefl, if_true, if_false,
      ite_true, ite_false, eq_self_iff_true]
    rw [hkey, if_pos hpk2]
  · rw [List.filter_append]
    have h1 : s.filter (fun v => idMatches b v.id id) = [] := by
      rw [List.filter_eq_nil_iff]
      intro v hv
      simp [hfresh v hv]
    rw [h1]
    simp [idMatches_self]

theorem c2_witness :
    create [⟨"z", [], 0, .latest⟩] 4 "a" [("x", 0)]
      = .ok ([⟨"z", [], 0, .latest⟩] ++ [⟨"a", [("x", 0)], 4, .latest⟩])
    ∧ update false ([⟨"z", [], 0, .latest⟩] ++ [⟨"a", [("x", 0)], 4, .latest⟩]) 4 "a" [("x", 1)]
        = .ok ([⟨"z", [], 0, .latest⟩]
            ++ [⟨"a", mergeRow [("x", 0)] [("x", 1)], 4, .latest⟩])
    ∧ ([(⟨"z", [], 0, .latest⟩ : Version)]
          ++ [(⟨"a", mergeRow [("x", 0)] [("x", 1)], 4, .latest⟩ : Version)]).filter
        (fun v : Version => idMatches false v.id "a")
        = [(⟨"a", mergeRow [("x", 0)] [("x", 1)], 4, .latest⟩ : Version)] :=
  c2_squash_update false [⟨"z", [], 0, .latest⟩] 4 "a" [("x", 0)] [("x", 1)]
    (by decide) (by decide)

/-- C1: in any table where `id` has no versions, for `c1 < c2`,
`create(table, c1, id, data)` followed by `update(table, c2, id, patch)`
leaves exactly two versions of `id`: the original with validity `[c1, c2)`
and a new current version merging the original with the patch, valid from
`c2`; `findUnique` returns the original values at any checkpoint in
`[c1, c2)` and the patched values at `"latest"`. -/
theorem c1_create_update_branch (b : Bool) (s : List Version) (c1 c2 : Nat) (id : String)
    (data patch : RowData) (h : c1 < c2) (hpk : pkOk s)
    (hfresh : ∀ v ∈ s, idMatches b v.id id = false) :
    create s c1 id data = .ok (s ++ [⟨id, data, c1, .latest⟩])
    ∧ update b (s ++ [⟨id, data, c1, .latest⟩]) c2 id patch
        = .ok (s ++ [⟨id, data, c1, .ckpt c2⟩, ⟨id, mergeRow data patch, c2, .latest⟩])
    ∧ (s ++ [(⟨id, data, c1, .ckpt c2⟩ : Version),
          ⟨id, mergeRow data patch, c2, .latest⟩]).filter
        (fun v : Version => idMatches b v.id id)
        = [(⟨id, data, c1, .ckpt c2⟩ : Version), ⟨id, mergeRow data patch, c2, .latest⟩]
    ∧ (∀ c : Nat, c1 ≤ c → c < c2 →
        internalFindUnique b
          (s ++ [⟨id, data, c1, .ckpt c2⟩, ⟨id, mergeRow data patch, c2, .latest⟩])
          id (.ckpt c) = some ⟨id, data, c1, .ckpt c2⟩)
    ∧ internalFindUnique b
        (s ++ [⟨id, data, c1, .ckpt c2⟩, ⟨id, mergeRow data patch, c2, .latest⟩])
        id .latest = some ⟨id, mergeRow data patch, c2, .latest⟩ := by
  have hlt1 : ¬ c2 < c1 := by omega
  have hne2 : ¬ c1 = c2 := by omega
  have hid_ne : ∀ v ∈ s, v.id ≠ id := fun v hv => idMatches_false_ne (hfresh v hv)
  have hnc0 : ∀ u ∈ s, noPkClash u ⟨id, data, c1, .latest⟩ := by
    intro u hu hcl
    exact hid_ne u hu hcl.1
  have hpk1 : pkOk (s ++ [(⟨id, data, c1, .ckpt c2⟩ : Version)]) := by
    refine pkOk_append_single hpk ?_
    intro u hu hcl
    exact hid_ne u hu hcl.1
  refine ⟨?_, ?_, ?_, ?_, ?_⟩
  · unfold create insertRow
    rw [if_pos hnc0]
  · have hfind : latestVersionOf b (s ++ [⟨id, data, c1, .latest⟩]) id
        = some ⟨id, data, c1, .latest⟩ := by
      unfold latestVersionOf
      rw [find?_append_false _ _ _ (fun v hv => by simp [hfresh v hv])]
      simp [List.find?, idMatches_self]
    have hkey : (s ++ [(⟨id, data, c1, .latest⟩ : Version)]).map
        (fun v : Version =>
          if (idMatches b v.id id && v.effectiveToCheckpoint == ECheckpoint.latest) = true
          then { v with effectiveToCheckpoint := ECheckpoint.ckpt c2 } else v)
        = s ++ [(⟨id, data, c1, .ckpt c2⟩ : Version)] := by
      rw [List.map_append]
      congr 1
      · exact map_id_of_mem (fun v hv => by simp [hfresh v hv])
      · simp [idMatches_self]
    have hnc2 : ∀ u ∈ s ++ [(⟨id, data, c1, .ckpt c2⟩ : Version)],
        noPkClash u ⟨id, mergeRow data patch, c2, .latest⟩ := by
      intro u hu hcl
      rcases List.mem_append.mp hu with hu1 | hu1
      · exact hid_ne u hu1 hcl.1
      · have hu2 : u = (⟨id, data, c1, .ckpt c2⟩ : Version) := by simpa using hu1
        subst hu2
        exact ECheckpoint.noConfusion hcl.2
    have hins : insertRow (s ++ [(⟨id, data, c1, .ckpt c2⟩ : Version)])
        ⟨id, mergeRow data patch, c2, .latest⟩
        = .ok (s ++ [⟨id, data, c1, .ckpt c2⟩, ⟨id, mergeRow data patch, c2, .latest⟩]) := by
      unfold insertRow
      rw [if_pos hnc2, List.append_assoc]
      rfl
    simp only [update, hfind, branchOrSquash, updateRows, hlt1, if_true, if_false,
      ite_true, ite_false, eq_self_iff_true, decide_eq_true_eq]
    rw [if_neg hne2, hkey, if_pos hpk1]
    exact hins
  · rw [List.filter_append]
    have h1 : s.filter (fun v : Version => idMatches b v.id id) = [] := by
      rw [List.filter_eq_nil_iff]
      intro v hv
      simp [hfresh v hv]
    rw [h1]
    simp [idMatches_self]
  · intro c hc1 hc2
    simp only [internalFindUnique]
    rw [find?_append_false _ _ _ (fun v hv => by simp [hfresh v hv])]
    simp [List.find?, idMatches_self, ECheckpoint.gtNat, hc1, hc2]
  · simp only [internalFindUnique]
    rw [find?_append_false _ _ _ (fun v hv => by simp [hfresh v hv])]
    simp [List.find?, idMatches_self, ckpt_beq_latest]

theorem c1_witness :
    create [⟨"z", [], 0, .latest⟩] 1 "a" [("x", 0)]
      = .ok ([⟨"z", [], 0, .latest⟩] ++ [⟨"a", [("x", 0)], 1, .latest⟩])
    ∧ update false ([⟨"z", [], 0, .latest⟩] ++ [⟨"a", [("x", 0)], 1, .latest⟩]) 2 "a" [("x", 1)]
        = .ok ([⟨"z", [], 0, .latest⟩] ++ [⟨"a", [("x", 0)], 1, .ckpt 2⟩,
            ⟨"a", mergeRow [("x", 0)] [("x", 1)], 2, .latest⟩])
    ∧ internalFindUnique false ([⟨"z", [], 0, .latest⟩] ++ [⟨"a", [("x", 0)], 1, .ckpt 2⟩,
        ⟨"a", mergeRow [("x", 0)] [("x", 1)], 2, .latest⟩]) "a" (.ckpt 1)
        = some ⟨"a", [("x", 0)], 1, .ckpt 2⟩
    ∧ internalFindUnique false ([⟨"z", [], 0, .latest⟩] ++ [⟨"a", [("x", 0)], 1, .ckpt 2⟩,
        ⟨"a", mergeRow [("x", 0)] [("x", 1)], 2, .latest⟩]) "a" .latest
        = some ⟨"a", mergeRow [("x", 0)] [("x", 1)], 2, .latest⟩ := by
  have h := c1_create_update_branch false [⟨"z", [], 0, .latest⟩] 1 2 "a" [("x", 0)] [("x", 1)]
    (by decide) (by decide) (by decide)
  exact ⟨h.1, h.2.1, h.2.2.2.1 1 (by decide) (by decide), h.2.2.2.2⟩

/-- C6 (amended): `update` (and `upsert` on an existing row) with a
checkpoint strictly below the current version's `effectiveFromCheckpoint`
fails by throwing `Error("Cannot update a record in the past")`; the thrown
error does not carry the table or id, and the failed call leaves the store
unchanged. -/
theorem c6_past_write (b : Bool) (s : List Version) (c : Nat) (id : String)
    (patch createData : RowData) (lr : Version)
    (hfind : latestVersionOf b s id = some lr)
    (hc : c < lr.effectiveFromCheckpoint) :
    update b s c id patch = .error (.thrownMessage "Cannot update a record in the past")
    ∧ upsert b s c id createData patch
        = .error (.thrownMessage "Cannot update a record in the past")
    ∧ applyOp b s (.update c id patch) = s
    ∧ applyOp b s (.upsert c id createData patch) = s := by
  have h1 : update b s c id patch
      = .error (.thrownMessage "Cannot update a record in the past") := by
    simp only [update, hfind]
    unfold branchOrSquash
    rw [if_pos hc]
  have h2 : upsert b s c id createData patch
      = .error (.thrownMessage "Cannot update a record in the past") := by
    simp only [upsert, hfind]
    unfold branchOrSquash
    rw [if_pos hc]
  exact ⟨h1, h2, by simp [applyOp, h1], by simp [applyOp, h2]⟩

theorem c6_counterexample :
    update false [⟨"0x1", [], 5, .latest⟩] 3 "0x1" []
      = .error (.thrownMessage "Cannot update a record in the past")
    ∧ strContains "Cannot update a record in the past" "0x1" = false
    ∧ strContains "Cannot update a record in the past" "Token" = false := by decide

theorem c6_witness :
    update false [⟨"k", [], 5, .latest⟩] 3 "k" []
      = .error (.thrownMessage "Cannot update a record in the past")
    ∧ upsert false [⟨"k", [], 5, .latest⟩] 3 "k" [] []
        = .error (.thrownMessage "Cannot update a record in the past")
    ∧ applyOp false [⟨"k", [], 5, .latest⟩] (.update 3 "k" []) = [⟨"k", [], 5, .latest⟩]
    ∧ applyOp false [⟨"k", [], 5, .latest⟩] (.upsert 3 "k" [] [])
        = [⟨"k", [], 5, .latest⟩] :=
  c6_past_write false [⟨"k", [], 5, .latest⟩] 3 "k" [] [] ⟨"k", [], 5, .latest⟩
    (by decide) (by decide)

/-- C7 (amended): on an id with no current version, `update` fails with
`NotFound` (the `executeTakeFirstOrThrow` rejection, propagated to the
caller), while `delete` does not fail: it returns `false` and leaves the
table unchanged. -/
theorem c7_not_found (b : Bool) (s : List Version) (c : Nat) (id : String) (patch : RowData)
    (hpk : pkOk s) (hnone : latestVersionOf b s id = none) :
    update b s c id patch = .error .notFound
    ∧ delete b s c id = .ok (false, s) := by
  have hall : ∀ v ∈ s, latestRowPred b id v = false := by
    intro v hv
    have hx := List.find?_eq_none.mp hnone v hv
    simpa [latestRowPred] using hx
  have hsc : ∀ v ∈ s, deleteShortcutPred b c id v = false := by
    intro v hv
    cases hdp : deleteShortcutPred b c id v with
    | false => rfl
    | true =>
      exfalso
      rw [deleteShortcutPred, Bool.and_eq_true, Bool.and_eq_true] at hdp
      have hlat : latestRowPred b id v = true := by
        rw [latestRowPred, Bool.and_eq_true]
        exact ⟨hdp.1.1, hdp.2⟩
      rw [hall v hv] at hlat
      exact Bool.false_ne_true hlat
  have hanysc : s.any (deleteShortcutPred b c id) = false := by
    rw [List.any_eq_false]
    intro v hv
    simp [hsc v hv]
  have hanylat : s.any (latestRowPred b id) = false := by
    rw [List.any_eq_false]
    intro v hv
    simp [hall v hv]
  have hmap : s.map (fun v => if latestRowPred b id v then
      { v with effectiveToCheckpoint := .ckpt c } else v) = s :=
    map_id_of_mem (fun v hv => by rw [hall v hv]; simp)
  constructor
  · simp only [update, hnone]
  · unfold delete
    rw [hanysc]
    simp only [Bool.false_eq_true, if_false]
    unfold updateRows
    rw [hmap, if_pos hpk, hanylat]

theorem c7_counterexample :
    delete false [] 1 "0x1" = .ok (false, []) := by decide

theorem c7_witness :
    update false [⟨"b", [], 0, .ckpt 3⟩] 1 "b" [] = .error .notFound
    ∧ delete false [⟨"b", [], 0, .ckpt 3⟩] 1 "b" = .ok (false, [⟨"b", [], 0, .ckpt 3⟩]) :=
  c7_not_found false [⟨"b", [], 0, .ckpt 3⟩] 1 "b" [] (by decide) (by decide)

/-- C3 (amended): `delete(table, c, id)` first removes the versions created
within the same checkpoint (`effectiveFromCheckpoint = c` and
`effectiveToCheckpoint = "latest"`) and returns `true` when one existed — in
particular `create(c)` then `delete(c)` leaves zero versions; otherwise it
truncates the current version's `effectiveToCheckpoint` to `c` and returns
whether a current version existed, provided no version of the id already
ends at `c` (otherwise the tombstone UPDATE violates the primary key and the
call fails). -/
theorem c3_delete_characterization (b : Bool) (s : List Version) (c : Nat) (id : String)
    (data : RowData) (hpk : pkOk s)
    (hsafe : ∀ v ∈ s, ¬(idMatches b v.id id = true ∧ v.effectiveToCheckpoint = .ckpt c)) :
    (s.any (deleteShortcutPred b c id) = true →
        delete b s c id = .ok (true, deleteRows s (deleteShortcutPred b c id)))
    ∧ (s.any (deleteShortcutPred b c id) = false →
        delete b s c id = .ok (s.any (latestRowPred b id),
          s.map (fun v => if latestRowPred b id v then
            { v with effectiveToCheckpoint := .ckpt c } else v)))
    ∧ (create [] c id data = .ok [⟨id, data, c, .latest⟩]
        ∧ delete b [⟨id, data, c, .latest⟩] c id = .ok (true, [])) := by
  refine ⟨?_, ?_, ?_, ?_⟩
  · intro h1
    unfold delete
    rw [h1]
    simp
  · intro h1
    have hpk2 : pkOk (s.map (fun v => if latestRowPred b id v then
        { v with effectiveToCheckpoint := .ckpt c } else v)) := by
      rw [pkOk, List.pairwise_map]
      refine List.Pairwise.imp_of_mem ?_ hpk
      intro u v hu hv hnc hcl
      by_cases hu1 : latestRowPred b id u = true
      · by_cases hv1 : latestRowPred b id v = true
        · rw [if_pos hu1, if_pos hv1] at hcl
          obtain ⟨hid, _⟩ := hcl
          rw [latestRowPred, Bool.and_eq_true, beq_iff_eq] at hu1 hv1
          exact hnc ⟨hid, hu1.2.trans hv1.2.symm⟩
        · rw [if_pos hu1, if_neg hv1] at hcl
          obtain ⟨hid, hto⟩ := hcl
          rw [latestRowPred, Bool.and_eq_true] at hu1
          refine hsafe v hv ⟨?_, ?_⟩
          · have hid' : u.id = v.id := hid
            rw [← hid']
            exact hu1.1
          · exact (show ECheckpoint.ckpt c = v.effectiveToCheckpoint from hto).symm
      · by_cases hv1 : latestRowPred b id v = true
        · rw [if_neg hu1, if_pos hv1] at hcl
          obtain ⟨hid, hto⟩ := hcl
          rw [latestRowPred, Bool.and_eq_true] at hv1
          refine hsafe u hu ⟨?_, ?_⟩
          · have hid' : u.id = v.id := hid
            rw [hid']
            exact hv1.1
          · exact hto
        · rw [if_neg hu1, if_neg hv1] at hcl
          exact hnc hcl
    unfold delete
    rw [h1]
    simp only [Bool.false_eq_true, if_false]
    unfold updateRows
    rw [if_pos hpk2]
  · simp [create, insertRow]
  · unfold delete
    have hp : deleteShortcutPred b c id ⟨id, data, c, .latest⟩ = true := by
      simp [deleteShortcutPred, idMatches_self]
    simp [hp, deleteRows]

theorem c3_counterexample :
    execOps false [.create 0 "x" [], .update 5 "x" [], .update 7 "x" []]
      = [⟨"x", [], 0, .ckpt 5⟩, ⟨"x", [], 5, .ckpt 7⟩, ⟨"x", [], 7, .latest⟩]
    ∧ delete false [⟨"x", [], 0, .ckpt 5⟩, ⟨"x", [], 5, .ckpt 7⟩, ⟨"x", [], 7, .latest⟩] 5 "x"
      = .error .pkViolation := by decide

theorem c3_witness :
    delete false [⟨"a", [], 2, .latest⟩] 2 "a"
      = .ok (true, deleteRows [⟨"a", [], 2, .latest⟩] (deleteShortcutPred false 2 "a")) :=
  (c3_delete_characterization false [⟨"a", [], 2, .latest⟩] 2 "a" [] (by decide)
    (by decide)).1 (by decide)

/-- C4 (amended): for every sequence of store calls against an initially
empty table, at every point of the sequence at most one version per id has
`effectiveToCheckpoint = "latest"`, where ids compare as the physical column
values (exact string equality, the comparison the PRIMARY KEY enforces);
for `bytes`-typed ids this is weaker than the schema's case-insensitive
equality, under which the invariant fails. -/
theorem c4_at_most_one_current (b : Bool) (ops : List Op) :
    atMostOneCurrent (execOps b ops) :=
  atMostOneCurrent_of_pkOk (execOps_pkOk b ops)

theorem pkOk_of_chain {s : List Version} (h2 : chainDisjoint s) (h3 : validIntervals s) :
    pkOk s := by
  rw [pkOk]
  rw [chainDisjoint] at h2
  refine List.Pairwise.imp_of_mem ?_ h2
  intro u v hu hv hd hcl
  obtain ⟨hid, hto⟩ := hcl
  rcases hd hid with hcase | hcase
  · cases hu' : u.effectiveToCheckpoint with
    | latest =>
      rw [hu'] at hcase
      exact Bool.false_ne_true hcase
    | ckpt a =>
      rw [hu'] at hcase
      simp only [ECheckpoint.leNat, decide_eq_true_eq] at hcase
      have h3v := h3 v hv
      rw [← hto, hu'] at h3v
      simp only [ECheckpoint.gtNat, decide_eq_true_eq] at h3v
      omega
  · cases hv' : v.effectiveToCheckpoint with
    | latest =>
      rw [hv'] at hcase
      exact Bool.false_ne_true hcase
    | ckpt a =>
      rw [hv'] at hcase
      simp only [ECheckpoint.leNat, decide_eq_true_eq] at hcase
      have h3u := h3 u hu
      rw [hto, hv'] at h3u
      simp only [ECheckpoint.gtNat, decide_eq_true_eq] at h3u
      omega

/-- C5: for every table state satisfying the version-chain invariants
(non-empty validity intervals and pairwise disjoint intervals per id, the
shape invariants 1–4 of the spec guarantee) and every safe checkpoint `cs`,
`revert(cs)` succeeds and is idempotent: applying it twice yields exactly
the same versions as applying it once. -/
theorem c5_revert_idempotent (s : List Version) (cs : Nat)
    (h2 : chainDisjoint s) (h3 : validIntervals s) :
    ∃ s1, revert s cs = .ok s1 ∧ revert s1 cs = .ok s1 := by
  have hpk : pkOk s := pkOk_of_chain h2 h3
  have hpk1 : pkOk (s.filter (fun v => !decide (cs ≤ v.effectiveFromCheckpoint))) :=
    pkOk_filter _ hpk
  have hd1 : chainDisjoint (s.filter (fun v => !decide (cs ≤ v.effectiveFromCheckpoint))) :=
    h2.sublist (List.filter_sublist s)
  have hlt : ∀ v ∈ s.filter (fun v => !decide (cs ≤ v.effectiveFromCheckpoint)),
      v.effectiveFromCheckpoint < cs := by
    intro v hv
    have h := (List.mem_filter.mp hv).2
    simp only [Bool.not_eq_true', decide_eq_false_iff_not, not_le] at h
    exact h
  have hpkm : pkOk ((s.filter (fun v => !decide (cs ≤ v.effectiveFromCheckpoint))).map
      (fun v => if v.effectiveToCheckpoint.geNat cs then
        { v with effectiveToCheckpoint := .latest } else v)) := by
    rw [pkOk, List.pairwise_map]
    have hcomb := hpk1.and hd1
    refine List.Pairwise.imp_of_mem ?_ hcomb
    intro u v hu hv hc hcl
    obtain ⟨hnc, hd⟩ := hc
    by_cases hu1 : u.effectiveToCheckpoint.geNat cs = true
    · by_cases hv1 : v.effectiveToCheckpoint.geNat cs = true
      · -- both re-opened: the intervals could not be disjoint
        rw [if_pos hu1, if_pos hv1] at hcl
        obtain ⟨hid, _⟩ := hcl
        have hid' : u.id = v.id := hid
        rcases hd hid' with hcase | hcase
        · cases hu' : u.effectiveToCheckpoint with
          | latest =>
            rw [hu'] at hcase
            -- leNat latest _ = false
            exact Bool.false_ne_true hcase
          | ckpt a =>
            rw [hu'] at hcase
            rw [hu'] at hu1
            simp only [ECheckpoint.leNat, decide_eq_true_eq] at hcase
            simp only [ECheckpoint.geNat, decide_eq_true_eq] at hu1
            have := hlt v hv
            omega
        · cases hv' : v.effectiveToCheckpoint with
          | latest =>
            rw [hv'] at hcase
            exact Bool.false_ne_true hcase
          | ckpt a =>
            rw [hv'] at hcase
            rw [hv'] at hv1
            simp only [ECheckpoint.leNat, decide_eq_true_eq] at hcase
            simp only [ECheckpoint.geNat, decide_eq_true_eq] at hv1
            have := hlt u hu
            omega
      · -- u re-opened to "latest", v untouched with a proper checkpoint
        obtain ⟨_, hto⟩ := hcl
        rw [if_pos hu1, if_neg hv1] at hto
        cases hv' : v.effectiveToCheckpoint with
        | latest =>
          rw [hv'] at hv1
          exact hv1 rfl
        | ckpt a =>
          have hto' : ECheckpoint.latest = v.effectiveToCheckpoint := hto
          rw [hv'] at hto'
          exact ECheckpoint.noConfusion hto'
    · by_cases hv1 : v.effectiveToCheckpoint.geNat cs = true
      · obtain ⟨_, hto⟩ := hcl
        rw [if_neg hu1, if_pos hv1] at hto
        cases hu' : u.effectiveToCheckpoint with
        | latest =>
          rw [hu'] at hu1
          exact hu1 rfl
        | ckpt a =>
          have hto' : u.effectiveToCheckpoint = ECheckpoint.latest := hto
          rw [hu'] at hto'
          exact ECheckpoint.noConfusion hto'
      · rw [if_neg hu1, if_neg hv1] at hcl
        exact hnc hcl
  refine ⟨(s.filter (fun v => !decide (cs ≤ v.effectiveFromCheckpoint))).map
      (fun v => if v.effectiveToCheckpoint.geNat cs then
        { v with effectiveToCheckpoint := .latest } else v), ?_, ?_⟩
  · simp only [revert, updateRows]
    rw [if_pos hpkm]
  · have hfeq : ((s.filter (fun v => !decide (cs ≤ v.effectiveFromCheckpoint))).map
        (fun v => if v.effectiveToCheckpoint.geNat cs then
          { v with effectiveToCheckpoint := .latest } else v)).filter
        (fun v => !decide (cs ≤ v.effectiveFromCheckpoint))
        = (s.filter (fun v => !decide (cs ≤ v.effectiveFromCheckpoint))).map
        (fun v => if v.effectiveToCheckpoint.geNat cs then
          { v with effectiveToCheckpoint := .latest } else v) := by
      rw [List.filter_eq_self]
      intro w hw
      obtain ⟨u, hu, rfl⟩ := List.mem_map.mp hw
      have hu' := hlt u hu
      by_cases hs1 : u.effectiveToCheckpoint.geNat cs = true
      · rw [if_pos hs1]
        simpa using hu'
      · rw [if_neg hs1]
        simpa using hu'
    have hmap : ∀ w ∈ (s.filter (fun v => !decide (cs ≤ v.effectiveFromCheckpoint))).map
        (fun v => if v.effectiveToCheckpoint.geNat cs then
          { v with effectiveToCheckpoint := .latest } else v),
        (if w.effectiveToCheckpoint.geNat cs then
          { w with effectiveToCheckpoint := ECheckpoint.latest } else w) = w := by
      intro w hw
      obtain ⟨u, hu, rfl⟩ := List.mem_map.mp hw
      by_cases hs1 : u.effectiveToCheckpoint.geNat cs = true
      · rw [if_pos hs1]
        rfl
      · rw [if_neg hs1]
        rw [if_neg hs1]
    simp only [revert, updateRows]
    rw [hfeq, map_id_of_mem hmap, if_pos hpkm]

theorem c5_witness :
    ∃ s1, revert [⟨"t", [], 0, .ckpt 4⟩, ⟨"t", [], 4, .latest⟩, ⟨"u", [], 6, .latest⟩] 5
        = .ok s1
      ∧ revert s1 5 = .ok s1 :=
  c5_revert_idempotent [⟨"t", [], 0, .ckpt 4⟩, ⟨"t", [], 4, .latest⟩, ⟨"u", [], 6, .latest⟩] 5
    (by decide) (by decide)

theorem c4_counterexample :
    create [] 1 "0xAB" [] = .ok [⟨"0xAB", [], 1, .latest⟩]
    ∧ create [⟨"0xAB", [], 1, .latest⟩] 1 "0xab" []
        = .ok [⟨"0xAB", [], 1, .latest⟩, ⟨"0xab", [], 1, .latest⟩]
    ∧ execOps true [.create 1 "0xAB" [], .create 1 "0xab" []]
        = [⟨"0xAB", [], 1, .latest⟩, ⟨"0xab", [], 1, .latest⟩]
    ∧ strLower "0xAB" = strLower "0xab"
    ∧ idMatches true "0xAB" "0xab" = true
    ∧ ¬ ((execOps true [.create 1 "0xAB" [], .create 1 "0xab" []]).Pairwise
        (fun u v => u.effectiveToCheckpoint = ECheckpoint.latest →
          v.effectiveToCheckpoint = ECheckpoint.latest → strLower u.id ≠ strLower v.id)) := by
  decide

theorem qWellFormed_qstep {s : QueueState} (h : qWellFormed s) (e : QueueEvent) :
    qWellFormed (qstep s e) := by
  obtain ⟨hb1, hb2, hb3, hdisj, hnd⟩ := h
  cases e with
  | request =>
    refine ⟨?_, ?_, ?_, ?_, ?_⟩
    · intro t ht
      simp only [qstep, List.mem_append, List.mem_singleton] at ht
      simp only [qstep]
      rcases ht with ht | ht
      · have := hb1 t ht
        omega
      · omega
    · intro t ht
      have := hb2 t ht
      simp only [qstep]
      omega
    · intro t ht
      have := hb3 t ht
      simp only [qstep]
      omega
    · intro t ht
      simp only [qstep, List.mem_append, List.mem_singleton] at ht
      rcases ht with ht | ht
      · exact hdisj t ht
      · subst ht
        constructor
        · intro hc
          have := hb2 _ hc
          omega
        · intro hc
          have := hb3 _ hc
          omega
    · simp only [qstep]
      rw [List.nodup_append]
      refine ⟨hnd, List.nodup_singleton _, ?_⟩
      intro t ht hmem
      have := hb1 t ht
      simp only [List.mem_singleton] at hmem
      omega
  | dispatchOne =>
    by_cases hr : s.running = true
    · cases hqe : s.queue with
      | nil =>
        simp only [qstep, hr, if_true, hqe]
        exact ⟨hb1, hb2, hb3, hdisj, hnd⟩
      | cons t' rest =>
        rw [hqe] at hb1 hdisj hnd
        simp only [qstep, hr, if_true, hqe]
        refine ⟨?_, ?_, hb3, ?_, ?_⟩
        · intro t ht
          exact hb1 t (List.mem_cons_of_mem _ ht)
        · intro t ht
          simp only [List.mem_append, List.mem_singleton] at ht
          rcases ht with ht | ht
          · exact hb2 t ht
          · subst ht
            exact hb1 t (List.mem_cons_self _ _)
        · intro t ht
          have hd := hdisj t (List.mem_cons_of_mem _ ht)
          refine ⟨?_, hd.2⟩
          simp only [List.mem_append, List.mem_singleton]
          rintro (hc | hc)
          · exact hd.1 hc
          · subst hc
            exact (List.nodup_cons.mp hnd).1 ht
        · exact (List.nodup_cons.mp hnd).2
    · simp only [qstep, hr, if_false]
      exact ⟨hb1, hb2, hb3, hdisj, hnd⟩
  | settle u =>
    by_cases hc : u ∈ s.inFlight
    · simp only [qstep, hc, if_true]
      refine ⟨hb1, ?_, ?_, ?_, hnd⟩
      · intro t ht
        exact hb2 t (List.mem_of_mem_erase ht)
      · intro t ht
        simp only [List.mem_append, List.mem_singleton] at ht
        rcases ht with ht | ht
        · exact hb3 t ht
        · subst ht
          exact hb2 t hc
      · intro t ht
        have hd := hdisj t ht
        refine ⟨fun hm => hd.1 (List.mem_of_mem_erase hm), ?_⟩
        simp only [List.mem_append, List.mem_singleton]
        rintro (hm | hm)
        · exact hd.2 hm
        · subst hm
          exact hd.1 hc
    · simp only [qstep, hc, if_false]
      exact ⟨hb1, hb2, hb3, hdisj, hnd⟩
  | clearEv =>
    refine ⟨?_, hb2, hb3, ?_, ?_⟩
    · intro t ht
      simp only [qstep, List.not_mem_nil] at ht
    · intro t ht
      simp only [qstep, List.not_mem_nil] at ht
    · simp only [qstep]
      exact List.nodup_nil
  | startEv => exact ⟨hb1, hb2, hb3, hdisj, hnd⟩
  | pauseEv => exact ⟨hb1, hb2, hb3, hdisj, hnd⟩

theorem qWellFormed_qexec (es : List QueueEvent) : qWellFormed (qexec qinit es) := by
  have hgen : ∀ s : QueueState, qWellFormed s → qWellFormed (qexec s es) := by
    induction es with
    | nil => intro s hs; exact hs
    | cons e rest ih =>
      intro s hs
      exact ih _ (qWellFormed_qstep hs e)
  refine hgen qinit ⟨?_, ?_, ?_, ?_, ?_⟩ <;> simp [qinit]

theorem deadTask_qstep {t : Nat} {s : QueueState} (h : deadTask t s) (e : QueueEvent) :
    deadTask t (qstep s e) := by
  obtain ⟨hq, hf, hst, hn⟩ := h
  cases e with
  | request =>
    refine ⟨?_, hf, hst, ?_⟩
    · simp only [qstep, List.mem_append, List.mem_singleton]
      rintro (h1 | h1)
      · exact hq h1
      · omega
    · simp only [qstep]
      omega
  | dispatchOne =>
    by_cases hr : s.running = true
    · cases hqe : s.queue with
      | nil =>
        simp only [qstep, hr, if_true, hqe]
        exact ⟨hq, hf, hst, hn⟩
      | cons t' rest =>
        rw [hqe] at hq
        simp only [qstep, hr, if_true, hqe]
        refine ⟨?_, ?_, hst, hn⟩
        · intro hmem
          exact hq (List.mem_cons_of_mem _ hmem)
        · simp only [List.mem_append, List.mem_singleton]
          rintro (h1 | h1)
          · exact hf h1
          · subst h1
            exact hq (List.mem_cons_self _ _)
    · simp only [qstep, hr, if_false]
      exact ⟨hq, hf, hst, hn⟩
  | settle u =>
    by_cases hc : u ∈ s.inFlight
    · simp only [qstep, hc, if_true]
      refine ⟨hq, ?_, ?_, hn⟩
      · intro hmem
        exact hf (List.mem_of_mem_erase hmem)
      · simp only [List.mem_append, List.mem_singleton]
        rintro (h1 | h1)
        · exact hst h1
        · subst h1
          exact hf hc
    · simp only [qstep, hc, if_false]
      exact ⟨hq, hf, hst, hn⟩
  | clearEv =>
    refine ⟨?_, hf, hst, hn⟩
    simp only [qstep, List.not_mem_nil]
    exact fun h => h
  | startEv => exact ⟨hq, hf, hst, hn⟩
  | pauseEv => exact ⟨hq, hf, hst, hn⟩

theorem deadTask_qexec {t : Nat} {s : QueueState} (h : deadTask t s) (es : List QueueEvent) :
    deadTask t (qexec s es) := by
  induction es generalizing s with
  | nil => exact h
  | cons e rest ih => exact ih (deadTask_qstep h e)

/-- C10: a task still in the pending queue when `clear()` runs is dropped:
its promise never settles — it is never in flight nor settled in any
subsequent execution — while a task already dispatched before `clear()` is
untouched and still settles normally when its transport promise returns. -/
theorem c10_cleared_tasks_never_settle (es1 : List QueueEvent) (tk : Nat)
    (hq : tk ∈ (qexec qinit es1).queue) :
    (∀ es2 : List QueueEvent,
        tk ∉ (qexec (qstep (qexec qinit es1) .clearEv) es2).settled
          ∧ tk ∉ (qexec (qstep (qexec qinit es1) .clearEv) es2).inFlight)
    ∧ (∀ u ∈ (qexec qinit es1).inFlight,
        u ∈ (qstep (qstep (qexec qinit es1) .clearEv) (.settle u)).settled) := by
  obtain ⟨hb1, hb2, hb3, hdisj, hnd⟩ := qWellFormed_qexec es1
  have hdead : deadTask tk (qstep (qexec qinit es1) .clearEv) := by
    refine ⟨?_, (hdisj tk hq).1, (hdisj tk hq).2, hb1 tk hq⟩
    simp [qstep]
  constructor
  · intro es2
    have hd2 := deadTask_qexec hdead es2
    exact ⟨hd2.2.2.1, hd2.2.1⟩
  · intro u hu
    simp only [qstep]
    rw [if_pos hu]
    simp

theorem c10_witness :
    (1 : Nat) ∉ (qexec (qstep (qexec qinit [.request, .request, .dispatchOne]) .clearEv)
        [.settle 0, .dispatchOne, .settle 1]).settled
    ∧ (0 : Nat) ∈ (qstep (qstep (qexec qinit [.request, .request, .dispatchOne]) .clearEv)
        (.settle 0)).settled := by
  have h := c10_cleared_tasks_never_settle [.request, .request, .dispatchOne] 1 (by decide)
  exact ⟨(h.1 [.settle 0, .dispatchOne, .settle 1]).1, h.2 0 (by decide)⟩

end Ponder
